import Mathlib

/-!
Verification of the geospatial correlation engine of the camera-tracking
application (src/main.py): great-circle distance, shortest-path routing,
route-proximity matching and point registration.

Modelling conventions:
- Python dicts holding camera records become association lists
  `List (String × JVal)` with the Python insertion-order update semantics.
- Python floats are modelled as real numbers; edge lengths, which are only
  added and compared, are modelled as rationals to keep the router executable.
- The road graph (a networkx multi-digraph) becomes a list of nodes with
  coordinates plus a list of directed weighted edges.
- `nx.shortest_path(graph, s, t, weight=length)` is third-party code; it is
  modelled by its documented contract (a minimum-total-weight path search,
  raising for a missing source node and for an unreachable target, both of
  which the caller converts to `None`).
-/

set_option maxHeartbeats 1000000

open scoped Classical

namespace Hirsiz

/-- Values that can appear in a camera record: JSON strings, numbers, booleans
and null, as loaded from `kamera_data.json` or produced by the matcher. -/
inductive JVal where
  | str : String → JVal
  | num : ℝ → JVal
  | jbool : Bool → JVal
  | jnull : JVal

/-- Python equality test between a stored value and an integer node id
(`camera_node in route_nodes`, `graph.has_node(camera_node)`): numbers compare
numerically, booleans compare as 0/1, strings and `None` never equal an int. -/
def valueEqId : JVal → ℤ → Prop
  | .num x, n => x = (n : ℝ)
  | .jbool b, n => (if b then (1 : ℤ) else 0) = n
  | _, _ => False

/-- A camera record: a Python dict, i.e. an ordered association list. -/
abbrev Camera : Type := List (String × JVal)

def keyName : String := "name"
def keyX : String := "x"
def keyY : String := "y"
def keyNodeId : String := "node_id"
def keyOnRoute : String := "on_route"
def keyDistance : String := "distance_to_route"

/-- Python `dict.get(k)`: the value stored under the first matching key,
`None` when absent. -/
def dictGet : Camera → String → JVal
  | [], _ => .jnull
  | p :: rest, k => if p.1 = k then p.2 else dictGet rest k

/-- Keys of a record, in insertion order. -/
def dictKeys (cam : Camera) : List String := cam.map Prod.fst

/-- Python `{**d, k: v}` semantics for one key: when `k` is present its value
is replaced in place, otherwise the pair is appended at the end. -/
def dictInsert (cam : Camera) (k : String) (v : JVal) : Camera :=
  if k ∈ dictKeys cam then cam.map (fun p => if p.1 = k then (k, v) else p)
  else cam ++ [(k, v)]

/-- The road graph: nodes are `(id, y latitude, x longitude)` triples and edges
are directed `(u, v, length)` triples, as supplied by osmnx/networkx. -/
structure Graph where
  nodes : List (ℤ × ℝ × ℝ)
  edges : List (ℤ × ℤ × ℚ)

/-- Node identifiers of the graph, in enumeration order. -/
def nodeIds (g : Graph) : List ℤ := g.nodes.map Prod.fst

/-- Python `graph.has_node(camera_node)` for a stored value. -/
def hasNodeVal (g : Graph) (v : JVal) : Prop := ∃ n ∈ nodeIds g, valueEqId v n

/-- Lookup of the node record matching a stored value (`graph.nodes[camera_node]`). -/
noncomputable def findNodeVal : List (ℤ × ℝ × ℝ) → JVal → Option (ℤ × ℝ × ℝ)
  | [], _ => none
  | p :: rest, v => if valueEqId v p.1 then some p else findNodeVal rest v

/-- Latitude attribute `graph.nodes[n]['y']` of a node id. -/
def nodeY (g : Graph) (n : ℤ) : ℝ :=
  match g.nodes.find? (fun p => p.1 == n) with
  | some p => p.2.1
  | none => 0

/-- Longitude attribute `graph.nodes[n]['x']` of a node id. -/
def nodeX (g : Graph) (n : ℤ) : ℝ :=
  match g.nodes.find? (fun p => p.1 == n) with
  | some p => p.2.2
  | none => 0

/-! ## calculate_distance (src/main.py lines 116-124) -/

/-- Python `math.radians`. -/
noncomputable def radians (x : ℝ) : ℝ := x * Real.pi / 180

/-- Haversine distance in kilometres, transcribed from `calculate_distance`. -/
noncomputable def calculate_distance (lat1 lon1 lat2 lon2 : ℝ) : ℝ :=
  let R : ℝ := 6371
  let rlat1 := radians lat1
  let rlon1 := radians lon1
  let rlat2 := radians lat2
  let rlon2 := radians lon2
  let dlat := rlat2 - rlat1
  let dlon := rlon2 - rlon1
  let a := Real.sin (dlat / 2) ^ 2 +
    Real.cos rlat1 * Real.cos rlat2 * Real.sin (dlon / 2) ^ 2
  let c := 2 * Real.arcsin (Real.sqrt a)
  R * c

/-- The intermediate quantity `a` of `calculate_distance`, the argument later
passed through `sqrt` and `asin`. -/
noncomputable def haversine_a (lat1 lon1 lat2 lon2 : ℝ) : ℝ :=
  Real.sin ((radians lat2 - radians lat1) / 2) ^ 2 +
    Real.cos (radians lat1) * Real.cos (radians lat2) *
      Real.sin ((radians lon2 - radians lon1) / 2) ^ 2

theorem calculate_distance_eq (lat1 lon1 lat2 lon2 : ℝ) :
    calculate_distance lat1 lon1 lat2 lon2 =
      6371 * (2 * Real.arcsin (Real.sqrt (haversine_a lat1 lon1 lat2 lon2))) := rfl

theorem sin_half_sq (x : ℝ) :
    Real.sin (x / 2) ^ 2 = 1 / 2 - Real.cos x / 2 := by
  have h1 : Real.sin (x / 2) ^ 2 = 1 - Real.cos (x / 2) ^ 2 := Real.sin_sq (x / 2)
  have h2 : Real.cos (x / 2) ^ 2 = 1 / 2 + Real.cos (2 * (x / 2)) / 2 := Real.cos_sq (x / 2)
  rw [h1, h2, show (2 : ℝ) * (x / 2) = x by ring]
  ring

/-- Closed form of the haversine intermediate: half of one minus the cosine of
the central angle. -/
theorem haversine_a_closed (lat1 lon1 lat2 lon2 : ℝ) :
    haversine_a lat1 lon1 lat2 lon2 =
      (1 - (Real.sin (radians lat1) * Real.sin (radians lat2) +
        Real.cos (radians lat1) * Real.cos (radians lat2) *
          Real.cos (radians lon2 - radians lon1))) / 2 := by
  unfold haversine_a
  rw [sin_half_sq, sin_half_sq, Real.cos_sub]
  ring

theorem haversine_a_self (lat lon : ℝ) : haversine_a lat lon lat lon = 0 := by
  unfold haversine_a
  simp

theorem calculate_distance_self (lat lon : ℝ) :
    calculate_distance lat lon lat lon = 0 := by
  rw [calculate_distance_eq, haversine_a_self, Real.sqrt_zero, Real.arcsin_zero]
  ring

theorem haversine_a_symm (lat1 lon1 lat2 lon2 : ℝ) :
    haversine_a lat1 lon1 lat2 lon2 = haversine_a lat2 lon2 lat1 lon1 := by
  unfold haversine_a
  rw [show radians lat1 - radians lat2 = -(radians lat2 - radians lat1) by ring,
    show radians lon1 - radians lon2 = -(radians lon2 - radians lon1) by ring,
    neg_div, neg_div, Real.sin_neg, Real.sin_neg, neg_sq, neg_sq]
  ring

theorem calculate_distance_symm (lat1 lon1 lat2 lon2 : ℝ) :
    calculate_distance lat1 lon1 lat2 lon2 = calculate_distance lat2 lon2 lat1 lon1 := by
  rw [calculate_distance_eq, calculate_distance_eq, haversine_a_symm]

/-- C5: the distance of a coordinate to itself is zero and the function is
symmetric in its two coordinate pairs. The original claim also asserted that
the result is zero only when the two coordinates are identical; that direction
is refuted by `claim_C5_counterexample`, so it is dropped here. -/
theorem claim_C5 (lat1 lon1 lat2 lon2 : ℝ) :
    calculate_distance lat1 lon1 lat1 lon1 = 0 ∧
      calculate_distance lat1 lon1 lat2 lon2 = calculate_distance lat2 lon2 lat1 lon1 :=
  ⟨calculate_distance_self lat1 lon1, calculate_distance_symm lat1 lon1 lat2 lon2⟩

theorem radians_of_neg_180 : radians (-180) = -Real.pi := by
  unfold radians
  rw [div_eq_iff (by norm_num : (180 : ℝ) ≠ 0)]
  ring

theorem radians_of_180 : radians 180 = Real.pi := by
  unfold radians
  rw [div_eq_iff (by norm_num : (180 : ℝ) ≠ 0)]
  ring

/-- C5 counterexample: the points with longitude -180 and longitude 180 on the
equator are distinct coordinate pairs at distance zero, refuting the claim
that the distance is zero exactly when the coordinates are identical. -/
theorem claim_C5_counterexample :
    calculate_distance 0 (-180) 0 180 = 0 ∧
      ¬ (((0 : ℝ), (-180 : ℝ)) = ((0 : ℝ), (180 : ℝ))) := by
  constructor
  · rw [calculate_distance_eq]
    have ha : haversine_a 0 (-180) 0 180 = 0 := by
      unfold haversine_a
      rw [show (radians 180 - radians (-180)) / 2 = Real.pi by
        rw [radians_of_180, radians_of_neg_180]; ring]
      simp
    rw [ha, Real.sqrt_zero, Real.arcsin_zero]
    ring
  · intro h
    have := congrArg Prod.snd h
    norm_num at this

theorem radians_abs_le (lat : ℝ) (h : |lat| ≤ 90) :
    -(Real.pi / 2) ≤ radians lat ∧ radians lat ≤ Real.pi / 2 := by
  have hpi := Real.pi_pos
  rw [abs_le] at h
  unfold radians
  constructor
  · nlinarith [mul_nonneg (by linarith : (0:ℝ) ≤ lat + 90) hpi.le]
  · nlinarith [mul_nonneg (by linarith : (0:ℝ) ≤ 90 - lat) hpi.le]

theorem cos_radians_nonneg (lat : ℝ) (h : |lat| ≤ 90) :
    0 ≤ Real.cos (radians lat) := by
  obtain ⟨h1, h2⟩ := radians_abs_le lat h
  exact Real.cos_nonneg_of_neg_pi_div_two_le_of_le h1 h2

theorem haversine_a_nonneg (lat1 lon1 lat2 lon2 : ℝ)
    (h1 : |lat1| ≤ 90) (h2 : |lat2| ≤ 90) :
    0 ≤ haversine_a lat1 lon1 lat2 lon2 := by
  rw [haversine_a_closed]
  have hc1 := cos_radians_nonneg lat1 h1
  have hc2 := cos_radians_nonneg lat2 h2
  have hcs := Real.cos_sub (radians lat1) (radians lat2)
  have hle := Real.cos_le_one (radians lat1 - radians lat2)
  have hdl := Real.cos_le_one (radians lon2 - radians lon1)
  nlinarith [mul_nonneg hc1 hc2]

theorem haversine_a_le_one (lat1 lon1 lat2 lon2 : ℝ)
    (h1 : |lat1| ≤ 90) (h2 : |lat2| ≤ 90) :
    haversine_a lat1 lon1 lat2 lon2 ≤ 1 := by
  rw [haversine_a_closed]
  have hc1 := cos_radians_nonneg lat1 h1
  have hc2 := cos_radians_nonneg lat2 h2
  have hca := Real.cos_add (radians lat1) (radians lat2)
  have hge := Real.cos_le_one (radians lat1 + radians lat2)
  have hdl := Real.neg_one_le_cos (radians lon2 - radians lon1)
  nlinarith [mul_nonneg hc1 hc2,
    mul_nonneg (by linarith : (0:ℝ) ≤ Real.cos (radians lon2 - radians lon1) + 1)
      (mul_nonneg hc1 hc2)]

/-- C6: for latitudes within ±90 degrees and longitudes within ±180 degrees
the intermediate `a` stays inside [0, 1], so `sqrt a` lies in the domain of
`asin`, and the returned kilometre value is non-negative: the function never
leaves the domain of any of its operations. -/
theorem claim_C6 (lat1 lon1 lat2 lon2 : ℝ)
    (h1 : |lat1| ≤ 90) (h2 : |lat2| ≤ 90) (h3 : |lon1| ≤ 180) (h4 : |lon2| ≤ 180) :
    0 ≤ haversine_a lat1 lon1 lat2 lon2 ∧
      Real.sqrt (haversine_a lat1 lon1 lat2 lon2) ≤ 1 ∧
      0 ≤ calculate_distance lat1 lon1 lat2 lon2 := by
  refine ⟨haversine_a_nonneg lat1 lon1 lat2 lon2 h1 h2, ?_, ?_⟩
  · calc Real.sqrt (haversine_a lat1 lon1 lat2 lon2)
        ≤ Real.sqrt 1 := Real.sqrt_le_sqrt (haversine_a_le_one lat1 lon1 lat2 lon2 h1 h2)
    _ = 1 := Real.sqrt_one
  · rw [calculate_distance_eq]
    have harc : 0 ≤ Real.arcsin (Real.sqrt (haversine_a lat1 lon1 lat2 lon2)) :=
      Real.arcsin_nonneg.2 (Real.sqrt_nonneg _)
    nlinarith

/-- C6 witness at the origin coordinate pair. -/
theorem claim_C6_witness :
    |(0 : ℝ)| ≤ 90 ∧
      (0 ≤ haversine_a 0 0 0 0 ∧ Real.sqrt (haversine_a 0 0 0 0) ≤ 1 ∧
        0 ≤ calculate_distance 0 0 0 0) :=
  ⟨by norm_num, claim_C6 0 0 0 0 (by norm_num) (by norm_num) (by norm_num) (by norm_num)⟩

/-! ## calculate_route (src/main.py lines 126-135)

Modelled from the documented contract of `nx.shortest_path(graph, start, end,
weight=length)`: a deterministic minimum-total-weight path search over the
directed multigraph, where the weight of a step is the minimum length among
parallel edges. A missing node or an unreachable target raises, which
`calculate_route` catches and converts to `None`; a `None` graph or `None`
node argument is also mapped to `None` up front. -/

/-- Directed adjacency: at least one edge from `u` to `v`. -/
def adjacent (g : Graph) (u v : ℤ) : Prop := ∃ e ∈ g.edges, e.1 = u ∧ e.2.1 = v

instance (g : Graph) : DecidableRel (adjacent g) := fun u v =>
  inferInstanceAs (Decidable (∃ e ∈ g.edges, e.1 = u ∧ e.2.1 = v))

/-- Successor node ids of `u` (with multiplicity, which is harmless). -/
def successors (g : Graph) (u : ℤ) : List ℤ :=
  (g.edges.filter (fun e => e.1 == u)).map (fun e => e.2.1)

/-- Lengths of all parallel edges from `u` to `v`. -/
def edgeWeights (g : Graph) (u v : ℤ) : List ℚ :=
  (g.edges.filter (fun e => e.1 == u && e.2.1 == v)).map (fun e => e.2.2)

/-- Minimum of a list of rationals, `none` on the empty list. -/
def listMin : List ℚ → Option ℚ
  | [] => none
  | q :: rest => some (match listMin rest with | none => q | some m => min q m)

/-- Weight of one step of a path: the minimum length among parallel edges
(the weight function networkx uses on multigraphs); 0 as an irrelevant
default when no edge exists. -/
def stepWeight (g : Graph) (u v : ℤ) : ℚ := (listMin (edgeWeights g u v)).getD 0

/-- Total weight of a node sequence, summing the length attribute. -/
def pathWeight (g : Graph) : List ℤ → ℚ
  | [] => 0
  | [_] => 0
  | u :: v :: rest => stepWeight g u v + pathWeight g (v :: rest)

/-- A valid path of the graph from `s` to `t`: nonempty, starts at `s`, ends
at `t`, and every consecutive pair is joined by an edge. -/
def isWalk (g : Graph) (s t : ℤ) (p : List ℤ) : Prop :=
  p.head? = some s ∧ p.getLast? = some t ∧ List.Chain' (adjacent g) p

theorem isWalk_pair (g : Graph) (u v : ℤ) (h : adjacent g u v) : isWalk g u v [u, v] :=
  ⟨rfl, rfl, List.chain'_cons.2 ⟨h, List.chain'_singleton v⟩⟩

/-- All duplicate-free paths from `u` to `t` avoiding `visited`, bounded by
`fuel`; the exhaustive search underlying the shortest-path model. -/
def simplePathsFrom (g : Graph) (t : ℤ) : ℕ → ℤ → List ℤ → List (List ℤ)
  | 0, _, _ => []
  | fuel + 1, u, visited =>
    if u = t then [[u]]
    else
      ((successors g u).filter (fun v => decide (v ∉ visited))).bind
        (fun v => (simplePathsFrom g t fuel v (v :: visited)).map (fun p => u :: p))

/-- First candidate of minimum weight, a deterministic tie-break. -/
def pickMinPath (g : Graph) : List (List ℤ) → Option (List ℤ)
  | [] => none
  | p :: rest =>
    some (rest.foldl (fun best q => if pathWeight g q < pathWeight g best then q else best) p)

/-- Modelled from the spec: the shortest-path search itself lives in the
third-party networkx library (`nx.shortest_path(graph, start, end,
weight=length)`), not in src/. Per its documented contract it returns a
minimum total-edge-weight path between two existing nodes and raises when a
node is missing or the target is unreachable; both exceptions become `none`
here. -/
def shortest_path (g : Graph) (s t : ℤ) : Option (List ℤ) :=
  if s ∈ nodeIds g ∧ t ∈ nodeIds g then
    pickMinPath g (simplePathsFrom g t g.nodes.length s [s])
  else none

/-- Transcription of `calculate_route`: `None` inputs and networkx exceptions
all collapse to a `None` result. -/
def calculate_route : Option Graph → Option ℤ → Option ℤ → Option (List ℤ)
  | some g, some s, some t => shortest_path g s t
  | _, _, _ => none

theorem mem_successors {g : Graph} {u v : ℤ} :
    v ∈ successors g u ↔ adjacent g u v := by
  unfold successors adjacent
  simp only [List.mem_map, List.mem_filter, beq_iff_eq]
  constructor
  · rintro ⟨e, ⟨he, h1⟩, h2⟩
    exact ⟨e, he, h1, h2⟩
  · rintro ⟨e, he, h1, h2⟩
    exact ⟨e, ⟨he, h1⟩, h2⟩

theorem simplePathsFrom_sound (g : Graph) (t : ℤ) :
    ∀ (fuel : ℕ) (u : ℤ) (visited : List ℤ) (p : List ℤ),
      p ∈ simplePathsFrom g t fuel u visited →
      p.head? = some u ∧ p.getLast? = some t ∧ List.Chain' (adjacent g) p := by
  intro fuel
  induction fuel with
  | zero => intro u visited p hp; simp [simplePathsFrom] at hp
  | succ n ih =>
    intro u visited p hp
    rw [simplePathsFrom] at hp
    by_cases hu : u = t
    · rw [if_pos hu] at hp
      simp only [List.mem_singleton] at hp
      subst hp
      exact ⟨rfl, by simp [hu], List.chain'_singleton u⟩
    · rw [if_neg hu] at hp
      simp only [List.mem_bind, List.mem_map, List.mem_filter,
        decide_eq_true_eq] at hp
      obtain ⟨v, ⟨hsucc, _⟩, q, hq, rfl⟩ := hp
      obtain ⟨h1, h2, h3⟩ := ih v (v :: visited) q hq
      cases q with
      | nil => simp at h1
      | cons b q' =>
        have hb : b = v := by simpa using h1
        subst hb
        refine ⟨rfl, ?_, ?_⟩
        · simpa [List.getLast?_cons_cons] using h2
        · exact List.chain'_cons.2 ⟨mem_successors.1 hsucc, h3⟩

theorem simplePathsFrom_complete (g : Graph) (t : ℤ) :
    ∀ (fuel : ℕ) (p : List ℤ) (u : ℤ) (visited : List ℤ),
      p.head? = some u → p.getLast? = some t → List.Chain' (adjacent g) p →
      p.Nodup → (∀ x ∈ p.tail, x ∉ visited) → p.length ≤ fuel →
      p ∈ simplePathsFrom g t fuel u visited := by
  intro fuel
  induction fuel with
  | zero =>
    intro p u visited h1 _ _ _ _ hlen
    cases p with
    | nil => simp at h1
    | cons a q => simp at hlen
  | succ n ih =>
    intro p u visited h1 h2 h3 h4 h5 hlen
    cases p with
    | nil => simp at h1
    | cons a q =>
      have ha : a = u := by simpa using h1
      subst ha
      rw [simplePathsFrom]
      by_cases hu : a = t
      · rw [if_pos hu]
        cases q with
        | nil => simp
        | cons b q' =>
          exfalso
          have hta : t ∈ b :: q' := by
            have : (b :: q').getLast? = some t := by
              simpa [List.getLast?_cons_cons] using h2
            exact List.mem_of_mem_getLast? this
          rw [← hu] at hta
          exact (List.nodup_cons.1 h4).1 hta
      · rw [if_neg hu]
        cases q with
        | nil =>
          exfalso
          exact hu (by simpa using h2)
        | cons b q' =>
          simp only [List.mem_bind, List.mem_map, List.mem_filter,
            decide_eq_true_eq]
          have hadj : adjacent g a b ∧ List.Chain' (adjacent g) (b :: q') :=
            List.chain'_cons.1 h3
          have hnodupb : (b :: q').Nodup := (List.nodup_cons.1 h4).2
          refine ⟨b, ⟨mem_successors.2 hadj.1, h5 b (by simp)⟩,
            b :: q', ih (b :: q') b (b :: visited) rfl ?_ hadj.2 hnodupb ?_ ?_, rfl⟩
          · simpa [List.getLast?_cons_cons] using h2
          · intro x hx
            simp only [List.mem_cons, not_or]
            constructor
            · intro hxb
              subst hxb
              exact (List.nodup_cons.1 hnodupb).1 hx
            · exact h5 x (by simp [List.mem_cons]; right; exact hx)
          · simpa using Nat.le_of_succ_le_succ hlen

theorem foldl_pick_spec (g : Graph) :
    ∀ (rest : List (List ℤ)) (p : List ℤ),
      ((rest.foldl (fun best q => if pathWeight g q < pathWeight g best then q else best) p)
          ∈ p :: rest) ∧
        pathWeight g (rest.foldl
            (fun best q => if pathWeight g q < pathWeight g best then q else best) p) ≤
          pathWeight g p ∧
        ∀ q ∈ rest,
          pathWeight g (rest.foldl
              (fun best q => if pathWeight g q < pathWeight g best then q else best) p) ≤
            pathWeight g q := by
  intro rest
  induction rest with
  | nil => intro p; simp
  | cons c cs ih =>
    intro p
    simp only [List.foldl_cons]
    obtain ⟨hmem, hle, hall⟩ := ih (if pathWeight g c < pathWeight g p then c else p)
    have hle' : pathWeight g (if pathWeight g c < pathWeight g p then c else p) ≤
        pathWeight g p := by
      by_cases h : pathWeight g c < pathWeight g p
      · rw [if_pos h]; exact le_of_lt h
      · rw [if_neg h]
    have hlec : pathWeight g (if pathWeight g c < pathWeight g p then c else p) ≤
        pathWeight g c := by
      by_cases h : pathWeight g c < pathWeight g p
      · rw [if_pos h]
      · rw [if_neg h]; exact le_of_not_lt h
    refine ⟨?_, le_trans hle hle', ?_⟩
    · rcases List.mem_cons.1 hmem with h | h
      · rw [h]
        by_cases hc : pathWeight g c < pathWeight g p
        · rw [if_pos hc]; simp
        · rw [if_neg hc]; simp
      · simp [List.mem_cons]
        right; right; exact h
    · intro q hq
      rcases List.mem_cons.1 hq with h | h
      · rw [h]; exact le_trans hle hlec
      · exact hall q h

theorem pickMinPath_spec (g : Graph) (l : List (List ℤ)) (p : List ℤ)
    (h : pickMinPath g l = some p) :
    p ∈ l ∧ ∀ q ∈ l, pathWeight g p ≤ pathWeight g q := by
  cases l with
  | nil => simp [pickMinPath] at h
  | cons c cs =>
    rw [pickMinPath, Option.some.injEq] at h
    obtain ⟨hmem, hle, hall⟩ := foldl_pick_spec g cs c
    rw [← h] at *
    refine ⟨hmem, ?_⟩
    intro q hq
    rcases List.mem_cons.1 hq with h' | h'
    · rw [h']; exact hle
    · exact hall q h'

theorem pickMinPath_isSome (g : Graph) (l : List (List ℤ)) (h : l ≠ []) :
    ∃ p, pickMinPath g l = some p := by
  cases l with
  | nil => exact absurd rfl h
  | cons c cs => exact ⟨_, rfl⟩

theorem exists_dup_split {α : Type} (p : List α) (h : ¬ p.Nodup) :
    ∃ (a : List α) (x : α) (b c : List α), p = a ++ x :: (b ++ x :: c) := by
  induction p with
  | nil => exact absurd List.nodup_nil h
  | cons y ys ih =>
    by_cases hy : y ∈ ys
    · obtain ⟨s, t', rfl⟩ := List.append_of_mem hy
      exact ⟨[], y, s, t', by simp⟩
    · have hys : ¬ ys.Nodup := fun hn => h (List.nodup_cons.2 ⟨hy, hn⟩)
      obtain ⟨a, x, b, c, rfl⟩ := ih hys
      exact ⟨y :: a, x, b, c, rfl⟩

theorem pathWeight_append (g : Graph) :
    ∀ (xs : List ℤ) (x : ℤ) (ys : List ℤ),
      pathWeight g (xs ++ x :: ys) = pathWeight g (xs ++ [x]) + pathWeight g (x :: ys) := by
  intro xs
  induction xs with
  | nil => intro x ys; simp [pathWeight]
  | cons a as ih =>
    intro x ys
    cases as with
    | nil => simp [pathWeight]
    | cons b bs =>
      have h1 : pathWeight g ((a :: b :: bs) ++ x :: ys) =
          stepWeight g a b + pathWeight g ((b :: bs) ++ x :: ys) := by
        simp [pathWeight]
      have h2 : pathWeight g ((a :: b :: bs) ++ [x]) =
          stepWeight g a b + pathWeight g ((b :: bs) ++ [x]) := by
        simp [pathWeight]
      rw [h1, h2, ih x ys]
      ring

theorem listMin_mem : ∀ (l : List ℚ) (m : ℚ), listMin l = some m → m ∈ l := by
  intro l
  induction l with
  | nil => intro m h; simp [listMin] at h
  | cons q rest ih =>
    intro m h
    rw [listMin, Option.some.injEq] at h
    cases hr : listMin rest with
    | none => rw [hr] at h; simp at h; simp [h]
    | some m' =>
      rw [hr] at h
      simp at h
      rcases min_choice q m' with hc | hc
      · rw [hc] at h; simp [← h]
      · rw [hc] at h
        right
        rw [← h]
        exact ih m' hr

theorem stepWeight_nonneg (g : Graph) (hnn : ∀ e ∈ g.edges, 0 ≤ e.2.2) (u v : ℤ) :
    0 ≤ stepWeight g u v := by
  unfold stepWeight
  cases h : listMin (edgeWeights g u v) with
  | none => simp
  | some m =>
    simp only [Option.getD_some]
    have hm := listMin_mem _ m h
    unfold edgeWeights at hm
    simp only [List.mem_map, List.mem_filter] at hm
    obtain ⟨e, ⟨he, _⟩, rfl⟩ := hm
    exact hnn e he

theorem pathWeight_nonneg (g : Graph) (hnn : ∀ e ∈ g.edges, 0 ≤ e.2.2) :
    ∀ p, 0 ≤ pathWeight g p := by
  intro p
  induction p with
  | nil => simp [pathWeight]
  | cons u q ih =>
    cases q with
    | nil => simp [pathWeight]
    | cons v rest =>
      have : pathWeight g (u :: v :: rest) = stepWeight g u v + pathWeight g (v :: rest) :=
        rfl
      rw [this]
      have := stepWeight_nonneg g hnn u v
      linarith

theorem chain'_head_adj {g : Graph} {x : ℤ} {c : List ℤ}
    (h : List.Chain' (adjacent g) (x :: c)) :
    ∀ z ∈ c.head?, adjacent g x z := by
  cases c with
  | nil => simp
  | cons z c' =>
    intro z' hz'
    have h0 : z = z' := by simpa using hz'
    rw [← h0]
    exact (List.chain'_cons.1 h).1

theorem walk_to_simple (g : Graph) (hnn : ∀ e ∈ g.edges, 0 ≤ e.2.2) :
    ∀ (n : ℕ) (p : List ℤ) (s t : ℤ), p.length ≤ n →
      p.head? = some s → p.getLast? = some t → List.Chain' (adjacent g) p →
      ∃ q, q.head? = some s ∧ q.getLast? = some t ∧ List.Chain' (adjacent g) q ∧
        q.Nodup ∧ (∀ x ∈ q, x ∈ p) ∧ pathWeight g q ≤ pathWeight g p := by
  intro n
  induction n with
  | zero =>
    intro p s t hlen h1 _ _
    cases p with
    | nil => simp at h1
    | cons a q => simp at hlen
  | succ n ih =>
    intro p s t hlen h1 h2 h3
    by_cases hnd : p.Nodup
    · exact ⟨p, h1, h2, h3, hnd, fun x hx => hx, le_refl _⟩
    · obtain ⟨a, x, b, c, rfl⟩ := exists_dup_split p hnd
      have hlen' : (a ++ x :: c).length ≤ n := by
        simp only [List.length_append, List.length_cons] at hlen ⊢
        omega
      have hhead : (a ++ x :: c).head? = some s := by
        cases a with
        | nil => simpa using h1
        | cons y as => simpa using h1
      have hlast : (a ++ x :: c).getLast? = some t := by
        rw [List.getLast?_append_cons]
        have : (a ++ x :: (b ++ x :: c)).getLast? = (x :: c).getLast? := by
          rw [show a ++ x :: (b ++ x :: c) = (a ++ x :: b) ++ (x :: c) by simp,
            List.getLast?_append_cons]
        rw [← this]
        exact h2
      have hxc : List.Chain' (adjacent g) (x :: c) := by
        have hsplit : List.Chain' (adjacent g) (b ++ x :: c) := by
          have h3' : List.Chain' (adjacent g) ((a ++ [x]) ++ (b ++ x :: c)) := by
            simpa [List.append_assoc] using h3
          exact (List.chain'_append.1 h3').2.1
        exact (List.chain'_append.1 hsplit).2.1
      have hchain : List.Chain' (adjacent g) (a ++ x :: c) := by
        have h3' : List.Chain' (adjacent g) ((a ++ [x]) ++ (b ++ x :: c)) := by
          simpa [List.append_assoc] using h3
        obtain ⟨hax, _, _⟩ := List.chain'_append.1 h3'
        have hgoal : List.Chain' (adjacent g) ((a ++ [x]) ++ c) := by
          apply List.chain'_append.2
          refine ⟨hax, hxc.tail, ?_⟩
          intro y hy z hz
          have hyx : x = y := by
            rw [List.getLast?_append_cons] at hy
            simpa using hy
          rw [← hyx]
          exact chain'_head_adj hxc z (by simpa using hz)
        simpa [List.append_assoc] using hgoal
      have hw : pathWeight g (a ++ x :: c) ≤ pathWeight g (a ++ x :: (b ++ x :: c)) := by
        rw [pathWeight_append g a x c, pathWeight_append g a x (b ++ x :: c),
          show x :: (b ++ x :: c) = (x :: b) ++ x :: c by simp,
          pathWeight_append g (x :: b) x c]
        have := pathWeight_nonneg g hnn ((x :: b) ++ [x])
        linarith
      obtain ⟨q, hq1, hq2, hq3, hq4, hq5, hq6⟩ := ih (a ++ x :: c) s t hlen' hhead hlast hchain
      refine ⟨q, hq1, hq2, hq3, hq4, ?_, le_trans hq6 hw⟩
      intro y hy
      have := hq5 y hy
      simp only [List.mem_append, List.mem_cons] at this ⊢
      tauto

theorem walk_mem_nodeIds (g : Graph)
    (hwf : ∀ e ∈ g.edges, e.1 ∈ nodeIds g ∧ e.2.1 ∈ nodeIds g) :
    ∀ (p : List ℤ) (s : ℤ), p.head? = some s → s ∈ nodeIds g →
      List.Chain' (adjacent g) p → ∀ x ∈ p, x ∈ nodeIds g := by
  intro p
  induction p with
  | nil => intro s _ _ _ x hx; simp at hx
  | cons a q ih =>
    intro s h1 hs h3 x hx
    have ha : a = s := by simpa using h1
    subst ha
    rcases List.mem_cons.1 hx with rfl | hxq
    · exact hs
    · cases q with
      | nil => simp at hxq
      | cons b q' =>
        have hadj : adjacent g a b := (List.chain'_cons.1 h3).1
        obtain ⟨e, he, _, he2⟩ := hadj
        have hb : b ∈ nodeIds g := he2 ▸ (hwf e he).2
        exact ih b rfl hb (List.chain'_cons.1 h3).2 x hxq

theorem simple_mem_candidates (g : Graph) (s t : ℤ) (q : List ℤ)
    (h1 : q.head? = some s) (h2 : q.getLast? = some t)
    (h3 : List.Chain' (adjacent g) q) (h4 : q.Nodup)
    (hlen : q.length ≤ g.nodes.length) :
    q ∈ simplePathsFrom g t g.nodes.length s [s] := by
  apply simplePathsFrom_complete g t _ q s [s] h1 h2 h3 h4 ?_ hlen
  intro x hx
  simp only [List.mem_singleton]
  intro hxs
  subst hxs
  cases q with
  | nil => simp at h1
  | cons a q' =>
    have ha : a = x := by simpa using h1
    subst ha
    exact (List.nodup_cons.1 h4).1 (by simpa using hx)

theorem nodup_subset_length (g : Graph) (q : List ℤ) (h4 : q.Nodup)
    (hmem : ∀ x ∈ q, x ∈ nodeIds g) : q.length ≤ g.nodes.length := by
  have := (List.subperm_of_subset h4 hmem).length_le
  simpa [nodeIds] using this

/-- C2: for a well-formed graph with non-negative edge lengths (physical
distances) and any connected pair of existing nodes, the router returns a
path that starts at the start node, ends at the end node, follows edges of
the graph, and whose total length is minimal among all valid paths between
the two nodes. -/
theorem claim_C2 (g : Graph) (s t : ℤ) (p₀ : List ℤ)
    (hwf : ∀ e ∈ g.edges, e.1 ∈ nodeIds g ∧ e.2.1 ∈ nodeIds g)
    (hnn : ∀ e ∈ g.edges, 0 ≤ e.2.2)
    (hs : s ∈ nodeIds g) (ht : t ∈ nodeIds g)
    (hconn : isWalk g s t p₀) :
    ∃ p, calculate_route (some g) (some s) (some t) = some p ∧ isWalk g s t p ∧
      ∀ q, isWalk g s t q → pathWeight g p ≤ pathWeight g q := by
  obtain ⟨h1, h2, h3⟩ := hconn
  obtain ⟨q₀, hq1, hq2, hq3, hq4, hq5, _⟩ :=
    walk_to_simple g hnn p₀.length p₀ s t le_rfl h1 h2 h3
  have hmemN : ∀ x ∈ q₀, x ∈ nodeIds g :=
    fun x hx => walk_mem_nodeIds g hwf p₀ s h1 hs h3 x (hq5 x hx)
  have hq0 : q₀ ∈ simplePathsFrom g t g.nodes.length s [s] :=
    simple_mem_candidates g s t q₀ hq1 hq2 hq3 hq4 (nodup_subset_length g q₀ hq4 hmemN)
  have hne : simplePathsFrom g t g.nodes.length s [s] ≠ [] := by
    intro h
    rw [h] at hq0
    exact absurd hq0 (List.not_mem_nil _)
  obtain ⟨p, hp⟩ := pickMinPath_isSome g _ hne
  obtain ⟨hpmem, hpmin⟩ := pickMinPath_spec g _ p hp
  obtain ⟨hp1, hp2, hp3⟩ := simplePathsFrom_sound g t _ s [s] p hpmem
  refine ⟨p, ?_, ⟨hp1, hp2, hp3⟩, ?_⟩
  · show shortest_path g s t = some p
    unfold shortest_path
    rw [if_pos ⟨hs, ht⟩]
    exact hp
  · rintro q ⟨hw1, hw2, hw3⟩
    obtain ⟨q', hr1, hr2, hr3, hr4, hr5, hr6⟩ :=
      walk_to_simple g hnn q.length q s t le_rfl hw1 hw2 hw3
    have hmemN' : ∀ x ∈ q', x ∈ nodeIds g :=
      fun x hx => walk_mem_nodeIds g hwf q s hw1 hs hw3 x (hr5 x hx)
    have hq' : q' ∈ simplePathsFrom g t g.nodes.length s [s] :=
      simple_mem_candidates g s t q' hr1 hr2 hr3 hr4 (nodup_subset_length g q' hr4 hmemN')
    exact le_trans (hpmin q' hq') hr6

/-- Example graph used by witnesses: three nodes, a two-hop path of total
length 2 and a direct edge of length 5. -/
def gW3 : Graph := ⟨[(1, 0, 0), (2, 0, 0), (3, 0, 0)], [(1, 2, 1), (2, 3, 1), (1, 3, 5)]⟩

/-- C2 witness on a concrete three-node graph. -/
theorem claim_C2_witness :
    (∀ e ∈ gW3.edges, e.1 ∈ nodeIds gW3 ∧ e.2.1 ∈ nodeIds gW3) ∧
      (∀ e ∈ gW3.edges, 0 ≤ e.2.2) ∧
      (1 : ℤ) ∈ nodeIds gW3 ∧ (3 : ℤ) ∈ nodeIds gW3 ∧ isWalk gW3 1 3 [1, 3] ∧
      ∃ p, calculate_route (some gW3) (some 1) (some 3) = some p ∧ isWalk gW3 1 3 p ∧
        ∀ q, isWalk gW3 1 3 q → pathWeight gW3 p ≤ pathWeight gW3 q :=
  ⟨by decide, by decide, by decide, by decide, isWalk_pair gW3 1 3 (by decide),
    claim_C2 gW3 1 3 [1, 3] (by decide) (by decide) (by decide) (by decide)
      (isWalk_pair gW3 1 3 (by decide))⟩

theorem no_walk_of_no_edges (g : Graph) (h : g.edges = []) (s t : ℤ) (hst : s ≠ t) :
    ¬ ∃ q, isWalk g s t q := by
  rintro ⟨q, h1, h2, h3⟩
  cases q with
  | nil => simp at h1
  | cons a q' =>
    cases q' with
    | nil =>
      have ha : a = s := by simpa using h1
      have ha' : a = t := by simpa using h2
      exact hst (ha ▸ ha')
    | cons b q'' =>
      obtain ⟨e, he, _⟩ := (List.chain'_cons.1 h3).1
      rw [h] at he
      exact absurd he (List.not_mem_nil e)

/-- C4 (amended): when the two nodes exist but are disconnected the router
returns `None` and it never returns a path that is not a valid start-to-end
path. The claimed distinguishability of `NoPathFound` from an invalid node id
fails: both produce the same `None` (see `claim_C4_counterexample`). -/
theorem claim_C4 (g : Graph) (s t : ℤ) :
    ((s ∈ nodeIds g ∧ t ∈ nodeIds g ∧ ¬ ∃ q, isWalk g s t q) →
      calculate_route (some g) (some s) (some t) = none) ∧
    (∀ p, calculate_route (some g) (some s) (some t) = some p → isWalk g s t p) := by
  constructor
  · rintro ⟨hs, ht, hno⟩
    show shortest_path g s t = none
    unfold shortest_path
    rw [if_pos ⟨hs, ht⟩]
    cases hpm : pickMinPath g (simplePathsFrom g t g.nodes.length s [s]) with
    | none => rfl
    | some p =>
      exfalso
      obtain ⟨hpmem, _⟩ := pickMinPath_spec g _ p hpm
      obtain ⟨h1, h2, h3⟩ := simplePathsFrom_sound g t _ s [s] p hpmem
      exact hno ⟨p, h1, h2, h3⟩
  · intro p hp
    have hp' : shortest_path g s t = some p := hp
    unfold shortest_path at hp'
    by_cases hg : s ∈ nodeIds g ∧ t ∈ nodeIds g
    · rw [if_pos hg] at hp'
      obtain ⟨hpmem, _⟩ := pickMinPath_spec g _ p hp'
      obtain ⟨h1, h2, h3⟩ := simplePathsFrom_sound g t _ s [s] p hpmem
      exact ⟨h1, h2, h3⟩
    · rw [if_neg hg] at hp'
      exact absurd hp' (by simp)

/-- Disconnected two-node graph used to refute C4 as stated. -/
def gDisc : Graph := ⟨[(1, 0, 0), (2, 0, 0)], []⟩

/-- C4 counterexample: the disconnected pair 1-2 and the nonexistent node 3
produce the identical outcome `None`, so the no-path failure is not
distinguishable from the invalid-node failure. -/
theorem claim_C4_counterexample :
    calculate_route (some gDisc) (some 1) (some 2) = none ∧
      calculate_route (some gDisc) (some 1) (some 3) = none ∧
      (1 : ℤ) ∈ nodeIds gDisc ∧ (2 : ℤ) ∈ nodeIds gDisc ∧ (3 : ℤ) ∉ nodeIds gDisc ∧
      ¬ ∃ q, isWalk gDisc 1 2 q :=
  ⟨by decide, by decide, by decide, by decide, by decide,
    no_walk_of_no_edges gDisc rfl 1 2 (by decide)⟩

/-- Two-node connected graph for witnesses. -/
def gW2 : Graph := ⟨[(1, 0, 0), (2, 0, 0)], [(1, 2, 1)]⟩

/-- C4 witness: the disconnected branch at a concrete graph and the
no-partial-path branch at a concrete connected graph. -/
theorem claim_C4_witness :
    ((1 : ℤ) ∈ nodeIds gDisc ∧ (2 : ℤ) ∈ nodeIds gDisc ∧ ¬ ∃ q, isWalk gDisc 1 2 q) ∧
      calculate_route (some gDisc) (some 1) (some 2) = none ∧
      calculate_route (some gW2) (some 1) (some 2) = some [1, 2] ∧
      isWalk gW2 1 2 [1, 2] :=
  ⟨⟨by decide, by decide, no_walk_of_no_edges gDisc rfl 1 2 (by decide)⟩,
    (claim_C4 gDisc 1 2).1 ⟨by decide, by decide, no_walk_of_no_edges gDisc rfl 1 2 (by decide)⟩,
    by decide,
    (claim_C4 gW2 1 2).2 [1, 2] (by decide)⟩

/-- C7: routing a node that exists in the graph to itself yields the
single-element sequence containing that node. -/
theorem claim_C7 (g : Graph) (n : ℤ) (hn : n ∈ nodeIds g) :
    calculate_route (some g) (some n) (some n) = some [n] := by
  show shortest_path g n n = some [n]
  unfold shortest_path
  rw [if_pos ⟨hn, hn⟩]
  obtain ⟨k, hk⟩ : ∃ k, g.nodes.length = k + 1 := by
    cases hnodes : g.nodes with
    | nil =>
      rw [nodeIds, hnodes] at hn
      simp at hn
    | cons a l => exact ⟨l.length, by simp [hnodes]⟩
  rw [hk, simplePathsFrom, if_pos rfl]
  rfl

/-- C7 witness on a concrete graph. -/
theorem claim_C7_witness :
    (1 : ℤ) ∈ nodeIds gW2 ∧ calculate_route (some gW2) (some 1) (some 1) = some [1] :=
  ⟨by decide, claim_C7 gW2 1 (by decide)⟩

/-! ## find_cameras_on_route (src/main.py lines 137-177) -/

/-- Python truthiness of the `on_route` value read by the sort key. -/
def asBool : JVal → Bool
  | .jbool b => b
  | _ => false

/-- Numeric reading of the `distance_to_route` value used by the sort key. -/
def asNum : JVal → ℝ
  | .num x => x
  | _ => 0

/-- Latitude of the graph node matching a stored camera node id. -/
noncomputable def camY (g : Graph) (v : JVal) : ℝ :=
  match findNodeVal g.nodes v with
  | some p => p.2.1
  | none => 0

/-- Longitude of the graph node matching a stored camera node id. -/
noncomputable def camX (g : Graph) (v : JVal) : ℝ :=
  match findNodeVal g.nodes v with
  | some p => p.2.2
  | none => 0

/-- Inner loop of the matcher: the running minimum (`None` standing for the
initial infinity) over route nodes for which both the route node and the
camera node exist in the graph. -/
noncomputable def minDistLoop (g : Graph) (v : JVal) : Option ℝ → List ℤ → Option ℝ
  | acc, [] => acc
  | acc, r :: rest =>
    if r ∈ nodeIds g ∧ hasNodeVal g v then
      minDistLoop g v
        (some (match acc with
          | none => calculate_distance (nodeY g r) (nodeX g r) (camY g v) (camX g v)
          | some m => min m (calculate_distance (nodeY g r) (nodeX g r) (camY g v) (camX g v))))
        rest
    else minDistLoop g v acc rest

/-- The `min_distance` computed by the matcher loop for one camera. -/
noncomputable def minDistToRoute (g : Graph) (route_nodes : List ℤ) (v : JVal) : Option ℝ :=
  minDistLoop g v none route_nodes

/-- One output record: `{**camera, "on_route": b, "distance_to_route": d}`. -/
def mkRanked (cam : Camera) (b : Bool) (d : ℝ) : Camera :=
  dictInsert (dictInsert cam keyOnRoute (.jbool b)) keyDistance (.num d)

/-- Body of the per-camera branch of `find_cameras_on_route`: membership of
the stored node id in the route makes the camera on-route at distance 0;
otherwise the minimum distance must exist and stay within the buffer. -/
noncomputable def classifyCamera (g : Graph) (route_nodes : List ℤ) (camera : Camera)
    (buffer : ℝ) : Option Camera :=
  let camera_node := dictGet camera keyNodeId
  if ∃ n ∈ route_nodes, valueEqId camera_node n then
    some (mkRanked camera true 0)
  else
    match minDistToRoute g route_nodes camera_node with
    | some m => if m ≤ buffer then some (mkRanked camera false m) else none
    | none => none

/-- Sort key `(not x[on_route], x[distance_to_route])` with Python booleans
ordered False < True, encoded as 0 < 1. -/
def sortKey (cam : Camera) : ℕ × ℝ :=
  ((if asBool (dictGet cam keyOnRoute) then 0 else 1), asNum (dictGet cam keyDistance))

/-- Lexicographic order of the sort keys: the comparison Python list.sort
performs on the key tuples. -/
def sortKeyLE (u v : Camera) : Prop :=
  (sortKey u).1 < (sortKey v).1 ∨
    ((sortKey u).1 = (sortKey v).1 ∧ (sortKey u).2 ≤ (sortKey v).2)

instance : IsTotal Camera sortKeyLE :=
  ⟨fun u v => by
    unfold sortKeyLE
    rcases lt_trichotomy (sortKey u).1 (sortKey v).1 with h | h | h
    · exact Or.inl (Or.inl h)
    · rcases le_total (sortKey u).2 (sortKey v).2 with h2 | h2
      · exact Or.inl (Or.inr ⟨h, h2⟩)
      · exact Or.inr (Or.inr ⟨h.symm, h2⟩)
    · exact Or.inr (Or.inl h)⟩

instance : IsTrans Camera sortKeyLE :=
  ⟨fun a b c hab hbc => by
    unfold sortKeyLE at *
    rcases hab with h1 | ⟨h1, h1'⟩ <;> rcases hbc with h2 | ⟨h2, h2'⟩
    · exact Or.inl (lt_trans h1 h2)
    · exact Or.inl (by rw [← h2]; exact h1)
    · exact Or.inl (by rw [h1]; exact h2)
    · exact Or.inr ⟨h1.trans h2, h1'.trans h2'⟩⟩

/-- Transcription of `find_cameras_on_route`: empty route or empty registry
short-circuits to an empty list, otherwise each camera is classified in
registry order and the survivors are sorted by the stable composite-key sort. -/
noncomputable def find_cameras_on_route (g : Graph) (route_nodes : List ℤ)
    (cameras : List Camera) (buffer : ℝ := 0.1) : List Camera :=
  if route_nodes = [] ∨ cameras = [] then []
  else
    List.insertionSort sortKeyLE
      (cameras.filterMap (fun c => classifyCamera g route_nodes c buffer))

/-! ### Dictionary update lemmas -/

theorem mem_dictKeys {cam : Camera} {k : String} :
    k ∈ dictKeys cam ↔ ∃ p ∈ cam, p.1 = k := by
  unfold dictKeys
  constructor
  · intro h
    rcases List.mem_map.1 h with ⟨p, hp, he⟩
    exact ⟨p, hp, he⟩
  · rintro ⟨p, hp, he⟩
    exact List.mem_map.2 ⟨p, hp, he⟩

theorem dictGet_append_of_ne (l : Camera) (k k' : String) (v : JVal) (h : k ≠ k') :
    dictGet (l ++ [(k, v)]) k' = dictGet l k' := by
  induction l with
  | nil => simp [dictGet, h]
  | cons p rest ih =>
    by_cases hp : p.1 = k'
    · simp [dictGet, hp]
    · simp only [List.cons_append, dictGet, hp, if_neg]
      exact ih

theorem dictGet_map_update_self (cam : Camera) (k : String) (v : JVal)
    (hk : k ∈ dictKeys cam) :
    dictGet (cam.map (fun p => if p.1 = k then (k, v) else p)) k = v := by
  induction cam with
  | nil => simp [dictKeys] at hk
  | cons p rest ih =>
    simp only [List.map_cons]
    by_cases hpk : p.1 = k
    · rw [if_pos hpk]
      simp [dictGet]
    · rw [if_neg hpk]
      simp only [dictGet]
      rw [if_neg hpk]
      apply ih
      rcases mem_dictKeys.1 hk with ⟨q, hq, hq1⟩
      rcases List.mem_cons.1 hq with rfl | hq'
      · exact absurd hq1 hpk
      · exact mem_dictKeys.2 ⟨q, hq', hq1⟩

theorem dictGet_append_self (cam : Camera) (k : String) (v : JVal)
    (hk : k ∉ dictKeys cam) :
    dictGet (cam ++ [(k, v)]) k = v := by
  induction cam with
  | nil => simp [dictGet]
  | cons p rest ih =>
    simp only [List.cons_append, dictGet]
    have hpk : p.1 ≠ k := fun h => hk (mem_dictKeys.2 ⟨p, List.mem_cons_self p rest, h⟩)
    rw [if_neg hpk]
    refine ih fun h => hk ?_
    rcases mem_dictKeys.1 h with ⟨q, hq, hq1⟩
    exact mem_dictKeys.2 ⟨q, List.mem_cons_of_mem p hq, hq1⟩

theorem dictGet_dictInsert_self (cam : Camera) (k : String) (v : JVal) :
    dictGet (dictInsert cam k v) k = v := by
  unfold dictInsert
  by_cases hk : k ∈ dictKeys cam
  · rw [if_pos hk]
    exact dictGet_map_update_self cam k v hk
  · rw [if_neg hk]
    exact dictGet_append_self cam k v hk

theorem dictGet_map_update_other (cam : Camera) (k k' : String) (v : JVal) (h : k' ≠ k) :
    dictGet (cam.map (fun p => if p.1 = k then (k, v) else p)) k' = dictGet cam k' := by
  induction cam with
  | nil => rfl
  | cons p rest ih =>
    simp only [List.map_cons]
    by_cases hpk : p.1 = k
    · rw [if_pos hpk]
      simp only [dictGet]
      rw [if_neg (fun hh : k = k' => h hh.symm),
        if_neg (fun hh : p.1 = k' => h (show k' = k by rw [← hpk]; exact hh.symm))]
      exact ih
    · rw [if_neg hpk]
      simp only [dictGet]
      by_cases hp' : p.1 = k'
      · rw [if_pos hp', if_pos hp']
      · rw [if_neg hp', if_neg hp']
        exact ih

theorem dictGet_dictInsert_other (cam : Camera) (k k' : String) (v : JVal) (h : k' ≠ k) :
    dictGet (dictInsert cam k v) k' = dictGet cam k' := by
  unfold dictInsert
  by_cases hk : k ∈ dictKeys cam
  · rw [if_pos hk]
    exact dictGet_map_update_other cam k k' v h
  · rw [if_neg hk]
    exact dictGet_append_of_ne cam k k' v (fun hh => h hh.symm)

theorem mem_dictInsert_other {cam : Camera} {k₀ : String} {v₀ : JVal} {k : String}
    {v : JVal} (h : k ≠ k₀) :
    (k, v) ∈ dictInsert cam k₀ v₀ ↔ (k, v) ∈ cam := by
  unfold dictInsert
  by_cases hk : k₀ ∈ dictKeys cam
  · rw [if_pos hk]
    simp only [List.mem_map]
    constructor
    · rintro ⟨p, hp, hpe⟩
      by_cases hpk : p.1 = k₀
      · rw [if_pos hpk] at hpe
        exact absurd (congrArg Prod.fst hpe).symm h
      · rw [if_neg hpk] at hpe
        exact hpe ▸ hp
    · intro hkv
      refine ⟨(k, v), hkv, ?_⟩
      rw [if_neg (show (k, v).1 ≠ k₀ from h)]
  · rw [if_neg hk]
    simp only [List.mem_append, List.mem_singleton]
    constructor
    · rintro (h1 | h1)
      · exact h1
      · exact absurd (congrArg Prod.fst h1) h
    · exact fun h1 => Or.inl h1

theorem mem_dictInsert_self (cam : Camera) (k : String) (v : JVal) :
    (k, v) ∈ dictInsert cam k v := by
  unfold dictInsert
  by_cases hk : k ∈ dictKeys cam
  · rw [if_pos hk]
    rcases mem_dictKeys.1 hk with ⟨p, hp, hp1⟩
    exact List.mem_map.2 ⟨p, hp, by rw [if_pos hp1]⟩
  · rw [if_neg hk]
    simp

theorem dictKeys_dictInsert (cam : Camera) (k₀ : String) (v₀ : JVal) (k : String) :
    k ∈ dictKeys (dictInsert cam k₀ v₀) ↔ k ∈ dictKeys cam ∨ k = k₀ := by
  unfold dictInsert
  by_cases hk : k₀ ∈ dictKeys cam
  · rw [if_pos hk]
    constructor
    · intro h
      rcases mem_dictKeys.1 h with ⟨q, hq, hq1⟩
      rcases List.mem_map.1 hq with ⟨p, hp, hpe⟩
      by_cases hpk : p.1 = k₀
      · rw [if_pos hpk] at hpe
        right
        rw [← hq1, ← hpe]
      · rw [if_neg hpk] at hpe
        left
        exact mem_dictKeys.2 ⟨q, hpe ▸ hp, hq1⟩
    · rintro (h | rfl)
      · rcases mem_dictKeys.1 h with ⟨p, hp, hp1⟩
        by_cases hpk : p.1 = k₀
        · rcases mem_dictKeys.1 hk with ⟨q, hq, hq1⟩
          apply mem_dictKeys.2
          refine ⟨(k₀, v₀), List.mem_map.2 ⟨q, hq, by rw [if_pos hq1]⟩, ?_⟩
          exact hpk ▸ hp1
        · exact mem_dictKeys.2 ⟨p, List.mem_map.2 ⟨p, hp, by rw [if_neg hpk]⟩, hp1⟩
      · rcases mem_dictKeys.1 hk with ⟨q, hq, hq1⟩
        exact mem_dictKeys.2 ⟨(k, v₀), List.mem_map.2 ⟨q, hq, by rw [if_pos hq1]⟩, rfl⟩
  · rw [if_neg hk]
    simp [dictKeys]

theorem mkRanked_onRoute (cam : Camera) (b : Bool) (d : ℝ) :
    dictGet (mkRanked cam b d) keyOnRoute = .jbool b := by
  unfold mkRanked
  rw [dictGet_dictInsert_other _ _ _ _ (by decide), dictGet_dictInsert_self]

theorem mkRanked_distance (cam : Camera) (b : Bool) (d : ℝ) :
    dictGet (mkRanked cam b d) keyDistance = .num d := by
  unfold mkRanked
  rw [dictGet_dictInsert_self]

/-! ### Stability of the sort -/

theorem filter_orderedInsert {α : Type} (r : α → α → Prop) [DecidableRel r] (q : α → Bool)
    (x : α) (h : ∀ y, q y = true → q x = true → r x y) :
    ∀ l : List α, (List.orderedInsert r x l).filter q =
      if q x then x :: l.filter q else l.filter q := by
  intro l
  induction l with
  | nil =>
    by_cases hqx : q x <;> simp [List.orderedInsert, List.filter, hqx]
  | cons b t ih =>
    by_cases hrb : r x b
    · rw [List.orderedInsert, if_pos hrb]
      by_cases hqx : q x <;> simp [List.filter_cons, hqx]
    · rw [List.orderedInsert, if_neg hrb]
      by_cases hqx : q x
      · have hqb : q b = false := by
          cases hb : q b
          · rfl
          · exact absurd (h b hb hqx) hrb
        simp [List.filter_cons, hqb, ih, hqx]
      · simp [List.filter_cons, ih, hqx]

theorem filter_insertionSort {α : Type} (r : α → α → Prop) [DecidableRel r] (q : α → Bool)
    (h : ∀ x y, q x = true → q y = true → r x y) :
    ∀ l : List α, (List.insertionSort r l).filter q = l.filter q := by
  intro l
  induction l with
  | nil => rfl
  | cons x t ih =>
    rw [List.insertionSort, filter_orderedInsert r q x (fun y hy hx => h x y hx hy)]
    by_cases hqx : q x <;> simp [List.filter_cons, hqx, ih]

/-! ### Matcher lemmas -/

theorem classify_route_nil (g : Graph) (c : Camera) (buffer : ℝ) :
    classifyCamera g [] c buffer = none := by
  simp only [classifyCamera]
  rw [if_neg (by simp)]
  rfl

theorem classify_eq_mkRanked {g : Graph} {route : List ℤ} {buffer : ℝ} {c e : Camera}
    (h : classifyCamera g route c buffer = some e) : ∃ b d, e = mkRanked c b d := by
  simp only [classifyCamera] at h
  by_cases hm : ∃ n ∈ route, valueEqId (dictGet c keyNodeId) n
  · rw [if_pos hm] at h
    exact ⟨true, 0, (Option.some.inj h).symm⟩
  · rw [if_neg hm] at h
    cases hd : minDistToRoute g route (dictGet c keyNodeId) with
    | none => rw [hd] at h; simp at h
    | some m =>
      rw [hd] at h
      have h' : (if m ≤ buffer then some (mkRanked c false m) else none) = some e := h
      by_cases hb : m ≤ buffer
      · rw [if_pos hb] at h'
        exact ⟨false, m, (Option.some.inj h').symm⟩
      · rw [if_neg hb] at h'
        simp at h'

theorem mem_find_cameras {g : Graph} {route : List ℤ} {cameras : List Camera}
    {buffer : ℝ} {e : Camera}
    (he : e ∈ find_cameras_on_route g route cameras buffer) :
    ∃ c ∈ cameras, classifyCamera g route c buffer = some e := by
  unfold find_cameras_on_route at he
  by_cases hg : route = [] ∨ cameras = []
  · rw [if_pos hg] at he
    simp at he
  · rw [if_neg hg] at he
    have hm := (List.perm_insertionSort sortKeyLE _).mem_iff.1 he
    rcases List.mem_filterMap.1 hm with ⟨c, hc, hcc⟩
    exact ⟨c, hc, hcc⟩

/-- C3: in the matcher output every on-route entry precedes every off-route
entry, distances ascend within each group, entries with equal sort keys keep
the registry order of the classified list (stability), and every entry carries
boolean and numeric values under the two added keys. -/
theorem claim_C3 (g : Graph) (route_nodes : List ℤ) (cameras : List Camera) :
    ((find_cameras_on_route g route_nodes cameras 0.1).Pairwise fun u v =>
        asBool (dictGet v keyOnRoute) = true → asBool (dictGet u keyOnRoute) = true) ∧
      ((find_cameras_on_route g route_nodes cameras 0.1).Pairwise fun u v =>
        asBool (dictGet u keyOnRoute) = asBool (dictGet v keyOnRoute) →
          asNum (dictGet u keyDistance) ≤ asNum (dictGet v keyDistance)) ∧
      (∀ k : ℕ × ℝ,
        (find_cameras_on_route g route_nodes cameras 0.1).filter
            (fun e => decide (sortKey e = k)) =
          (cameras.filterMap fun c => classifyCamera g route_nodes c 0.1).filter
            (fun e => decide (sortKey e = k))) ∧
      (∀ e ∈ find_cameras_on_route g route_nodes cameras 0.1,
        ∃ b d, dictGet e keyOnRoute = JVal.jbool b ∧ dictGet e keyDistance = JVal.num d) := by
  unfold find_cameras_on_route
  by_cases hg : route_nodes = [] ∨ cameras = []
  · rw [if_pos hg]
    refine ⟨List.Pairwise.nil, List.Pairwise.nil, ?_, by simp⟩
    intro k
    have h0 : (cameras.filterMap fun c => classifyCamera g route_nodes c 0.1) = [] := by
      rcases hg with hg | hg
      · subst hg
        exact List.filterMap_eq_nil.2 fun c _ => classify_route_nil g c 0.1
      · subst hg
        rfl
    rw [h0]
  · rw [if_neg hg]
    have hsorted :=
      List.sorted_insertionSort sortKeyLE
        (cameras.filterMap fun c => classifyCamera g route_nodes c 0.1)
    refine ⟨?_, ?_, ?_, ?_⟩
    · refine List.Pairwise.imp ?_ hsorted
      intro u v huv hv
      by_cases hu : asBool (dictGet u keyOnRoute)
      · exact hu
      · exfalso
        unfold sortKeyLE sortKey at huv
        simp [hu, hv] at huv
    · refine List.Pairwise.imp ?_ hsorted
      intro u v huv heq
      unfold sortKeyLE sortKey at huv
      simp only [heq] at huv
      rcases huv with h | h
      · exact absurd h (lt_irrefl _)
      · exact h.2
    · intro k
      apply filter_insertionSort sortKeyLE (fun e => decide (sortKey e = k))
      intro x y hx hy
      have hx' : sortKey x = k := of_decide_eq_true hx
      have hy' : sortKey y = k := of_decide_eq_true hy
      right
      constructor
      · rw [hx', hy']
      · rw [hx', hy']
    · intro e he
      have hm := (List.perm_insertionSort sortKeyLE _).mem_iff.1 he
      rcases List.mem_filterMap.1 hm with ⟨c, _, hcc⟩
      rcases classify_eq_mkRanked hcc with ⟨b, d, rfl⟩
      exact ⟨b, d, mkRanked_onRoute c b d, mkRanked_distance c b d⟩

/-- C10 (amended): the matcher never mutates its inputs; every output entry is
a fresh record built from exactly one registry camera whose pairs under keys
other than `on_route` and `distance_to_route` are carried over unchanged, with
those two keys set to the computed classification — overwriting any
equally-named keys already present in the camera (which is what refutes the
claim as stated, see the counterexample). -/
theorem claim_C10 (g : Graph) (route_nodes : List ℤ) (cameras : List Camera) (buffer : ℝ)
    (e : Camera) (he : e ∈ find_cameras_on_route g route_nodes cameras buffer) :
    ∃ c ∈ cameras, ∃ b d, e = mkRanked c b d ∧
      (∀ k v, k ≠ keyOnRoute → k ≠ keyDistance → ((k, v) ∈ e ↔ (k, v) ∈ c)) ∧
      (∀ k, k ∈ dictKeys e ↔ k ∈ dictKeys c ∨ k = keyOnRoute ∨ k = keyDistance) ∧
      (keyOnRoute, JVal.jbool b) ∈ e ∧ (keyDistance, JVal.num d) ∈ e := by
  rcases mem_find_cameras he with ⟨c, hc, hcc⟩
  rcases classify_eq_mkRanked hcc with ⟨b, d, rfl⟩
  refine ⟨c, hc, b, d, rfl, ?_, ?_, ?_, ?_⟩
  · intro k v hk1 hk2
    unfold mkRanked
    rw [mem_dictInsert_other hk2, mem_dictInsert_other hk1]
  · intro k
    unfold mkRanked
    rw [dictKeys_dictInsert, dictKeys_dictInsert]
    tauto
  · exact (mem_dictInsert_other (by decide)).2 (mem_dictInsert_self c keyOnRoute (.jbool b))
  · exact mem_dictInsert_self _ keyDistance (.num d)

/-- Single-node graph used by the matcher counterexamples and witnesses. -/
def gOne : Graph := ⟨[(1, 0, 0)], []⟩

/-- A camera record that already contains an `on_route` key. -/
def camDup : Camera := [(keyNodeId, .num 1), (keyOnRoute, .num 7)]

theorem classify_camDup :
    classifyCamera gOne [1] camDup 0.1 = some (mkRanked camDup true 0) := by
  simp only [classifyCamera]
  rw [if_pos]
  refine ⟨1, by simp, ?_⟩
  have hget : dictGet camDup keyNodeId = .num 1 := rfl
  rw [hget]
  norm_num [valueEqId]

/-- C10 counterexample: a camera whose record already holds the pair
`(on_route, 7)` loses that pair in the output entry, so the output entry does
not contain every key-value pair of the input camera. -/
theorem claim_C10_counterexample :
    (keyOnRoute, JVal.num 7) ∈ camDup ∧
      find_cameras_on_route gOne [1] [camDup] 0.1 = [mkRanked camDup true 0] ∧
      (keyOnRoute, JVal.num 7) ∉ mkRanked camDup true 0 := by
  refine ⟨by simp [camDup], ?_, ?_⟩
  · unfold find_cameras_on_route
    rw [if_neg (by simp)]
    have hfm : [camDup].filterMap (fun c => classifyCamera gOne [1] c 0.1) =
        [mkRanked camDup true 0] := by
      simp [List.filterMap_cons, classify_camDup]
    rw [hfm]
    rfl
  · have hmk : mkRanked camDup true 0 =
        [(keyNodeId, JVal.num 1), (keyOnRoute, JVal.jbool true), (keyDistance, JVal.num 0)] :=
      rfl
    rw [hmk]
    intro h
    simp [keyOnRoute, keyNodeId, keyDistance] at h

/-- C10 witness (for the amended theorem) at the single-camera input. -/
theorem claim_C10_witness :
    mkRanked camDup true 0 ∈ find_cameras_on_route gOne [1] [camDup] 0.1 ∧
      ∃ c ∈ [camDup], ∃ b d, mkRanked camDup true 0 = mkRanked c b d ∧
        (∀ k v, k ≠ keyOnRoute → k ≠ keyDistance →
          ((k, v) ∈ mkRanked camDup true 0 ↔ (k, v) ∈ c)) ∧
        (∀ k, k ∈ dictKeys (mkRanked camDup true 0) ↔
          k ∈ dictKeys c ∨ k = keyOnRoute ∨ k = keyDistance) ∧
        (keyOnRoute, JVal.jbool b) ∈ mkRanked camDup true 0 ∧
        (keyDistance, JVal.num d) ∈ mkRanked camDup true 0 := by
  have hin : mkRanked camDup true 0 ∈ find_cameras_on_route gOne [1] [camDup] 0.1 := by
    unfold find_cameras_on_route
    rw [if_neg (by simp)]
    have hfm : [camDup].filterMap (fun c => classifyCamera gOne [1] c 0.1) =
        [mkRanked camDup true 0] := by
      simp [List.filterMap_cons, classify_camDup]
    rw [hfm]
    simp [List.insertionSort]
  exact ⟨hin, claim_C10 gOne [1] [camDup] 0.1 (mkRanked camDup true 0) hin⟩

/-! ### Absent cameras (C9) -/

theorem minDistLoop_of_not_hasNode (g : Graph) (v : JVal) (h : ¬ hasNodeVal g v) :
    ∀ (route : List ℤ) (acc : Option ℝ), minDistLoop g v acc route = acc := by
  intro route
  induction route with
  | nil => intro acc; rfl
  | cons r rest ih =>
    intro acc
    simp only [minDistLoop]
    rw [if_neg (fun hh => h hh.2)]
    exact ih acc

theorem classify_none_of_absent (g : Graph) (route : List ℤ) (cam : Camera) (buffer : ℝ)
    (h1 : ¬ ∃ n ∈ route, valueEqId (dictGet cam keyNodeId) n)
    (h2 : ¬ hasNodeVal g (dictGet cam keyNodeId)) :
    classifyCamera g route cam buffer = none := by
  simp only [classifyCamera]
  rw [if_neg h1]
  unfold minDistToRoute
  rw [minDistLoop_of_not_hasNode g _ h2 route none]

theorem filterMap_filter_eq {α β : Type} (f : α → Option β) (p : α → Bool) (l : List α)
    (h : ∀ c ∈ l, p c = false → f c = none) :
    (l.filter p).filterMap f = l.filterMap f := by
  induction l with
  | nil => rfl
  | cons c t ih =>
    have iht := ih fun x hx hpx => h x (List.mem_cons_of_mem c hx) hpx
    cases hp : p c
    · have hf := h c (List.mem_cons_self c t) hp
      simp [List.filter_cons, hp, List.filterMap_cons, hf, iht]
    · simp [List.filter_cons, hp, List.filterMap_cons, iht]

/-- C9: a camera whose stored node id matches no route node and is absent from
the graph is classified away, and removing all its occurrences from the
registry leaves the matcher output unchanged — its stored x/y coordinates
never enter the computation. -/
theorem claim_C9 (g : Graph) (route_nodes : List ℤ) (cameras : List Camera) (buffer : ℝ)
    (cam : Camera)
    (h1 : ¬ ∃ n ∈ route_nodes, valueEqId (dictGet cam keyNodeId) n)
    (h2 : ¬ hasNodeVal g (dictGet cam keyNodeId)) :
    classifyCamera g route_nodes cam buffer = none ∧
      find_cameras_on_route g route_nodes cameras buffer =
        find_cameras_on_route g route_nodes
          (cameras.filter fun c => decide (c ≠ cam)) buffer := by
  have hnone := classify_none_of_absent g route_nodes cam buffer h1 h2
  refine ⟨hnone, ?_⟩
  have hfm : ((cameras.filter fun c => decide (c ≠ cam)).filterMap
      fun c => classifyCamera g route_nodes c buffer) =
      cameras.filterMap fun c => classifyCamera g route_nodes c buffer := by
    apply filterMap_filter_eq
    intro c _ hpc
    have hceq : c = cam := not_not.1 (of_decide_eq_false hpc)
    rw [hceq]
    exact hnone
  unfold find_cameras_on_route
  by_cases hr : route_nodes = []
  · rw [if_pos (Or.inl hr), if_pos (Or.inl hr)]
  · by_cases hc : cameras = []
    · rw [if_pos (Or.inr hc), if_pos (Or.inr (by rw [hc]; rfl))]
    · rw [if_neg (not_or.2 ⟨hr, hc⟩)]
      by_cases hfc : (cameras.filter fun c => decide (c ≠ cam)) = []
      · rw [if_pos (Or.inr hfc)]
        rw [← hfm, hfc]
        rfl
      · rw [if_neg (not_or.2 ⟨hr, hfc⟩)]
        rw [hfm]

/-- A camera whose stored node id (5) exists neither on the route nor in the
graph. -/
def camFar : Camera := [(keyNodeId, .num 5)]

/-- C9 witness at a concrete graph, route and camera. -/
theorem claim_C9_witness :
    (¬ ∃ n ∈ [(1 : ℤ)], valueEqId (dictGet camFar keyNodeId) n) ∧
      (¬ hasNodeVal gOne (dictGet camFar keyNodeId)) ∧
      classifyCamera gOne [1] camFar 0.1 = none ∧
      find_cameras_on_route gOne [1] [camFar] 0.1 =
        find_cameras_on_route gOne [1] ([camFar].filter fun c => decide (c ≠ camFar)) 0.1 := by
  have hget : dictGet camFar keyNodeId = .num 5 := rfl
  have h1 : ¬ ∃ n ∈ [(1 : ℤ)], valueEqId (dictGet camFar keyNodeId) n := by
    rintro ⟨n, hn, hv⟩
    simp at hn
    subst hn
    rw [hget] at hv
    norm_num [valueEqId] at hv
  have h2 : ¬ hasNodeVal gOne (dictGet camFar keyNodeId) := by
    rintro ⟨n, hn, hv⟩
    have hn1 : n = 1 := by simpa [gOne, nodeIds] using hn
    subst hn1
    rw [hget] at hv
    norm_num [valueEqId] at hv
  exact ⟨h1, h2, (claim_C9 gOne [1] [camFar] 0.1 camFar h1 h2).1,
    (claim_C9 gOne [1] [camFar] 0.1 camFar h1 h2).2⟩

/-! ### Characterising the minimum distance (C1) -/

/-- The candidate distances the matcher loop considers for one camera: one for
each route node present in the graph, provided the camera node is present;
each is the great-circle distance between the two graph node coordinates. -/
noncomputable def distCandidates (g : Graph) (route_nodes : List ℤ) (v : JVal) : List ℝ :=
  (route_nodes.filter fun r => decide (r ∈ nodeIds g ∧ hasNodeVal g v)).map
    fun r => calculate_distance (nodeY g r) (nodeX g r) (camY g v) (camX g v)

/-- Running minimum over a list, `none` standing for the initial infinity. -/
noncomputable def optFold : Option ℝ → List ℝ → Option ℝ
  | acc, [] => acc
  | acc, d :: l => optFold (some (match acc with | none => d | some m => min m d)) l

theorem distCandidates_cons_pos (g : Graph) (v : JVal) (r : ℤ) (rest : List ℤ)
    (h : r ∈ nodeIds g ∧ hasNodeVal g v) :
    distCandidates g (r :: rest) v =
      calculate_distance (nodeY g r) (nodeX g r) (camY g v) (camX g v) ::
        distCandidates g rest v := by
  unfold distCandidates
  rw [List.filter_cons, if_pos (by simpa using h)]
  simp [List.map_cons]

theorem distCandidates_cons_neg (g : Graph) (v : JVal) (r : ℤ) (rest : List ℤ)
    (h : ¬ (r ∈ nodeIds g ∧ hasNodeVal g v)) :
    distCandidates g (r :: rest) v = distCandidates g rest v := by
  unfold distCandidates
  rw [List.filter_cons, if_neg (by simpa using h)]

theorem minDistLoop_eq_optFold (g : Graph) (v : JVal) :
    ∀ (route : List ℤ) (acc : Option ℝ),
      minDistLoop g v acc route = optFold acc (distCandidates g route v) := by
  intro route
  induction route with
  | nil => intro acc; rfl
  | cons r rest ih =>
    intro acc
    simp only [minDistLoop]
    by_cases hcond : r ∈ nodeIds g ∧ hasNodeVal g v
    · rw [if_pos hcond, distCandidates_cons_pos g v r rest hcond]
      simp only [optFold]
      exact ih _
    · rw [if_neg hcond, distCandidates_cons_neg g v r rest hcond]
      exact ih acc

theorem optFold_some_spec :
    ∀ (l : List ℝ) (a : ℝ),
      ∃ m, optFold (some a) l = some m ∧ (m = a ∨ m ∈ l) ∧ m ≤ a ∧ ∀ y ∈ l, m ≤ y := by
  intro l
  induction l with
  | nil => intro a; exact ⟨a, rfl, Or.inl rfl, le_refl a, by simp⟩
  | cons d t ih =>
    intro a
    rcases ih (min a d) with ⟨m, hm, hmem, hle, hall⟩
    refine ⟨m, ?_, ?_, ?_, ?_⟩
    · simp only [optFold]
      exact hm
    · rcases hmem with rfl | hmt
      · rcases min_choice a d with h | h
        · exact Or.inl h
        · right
          rw [h]
          simp
      · exact Or.inr (List.mem_cons_of_mem d hmt)
    · exact le_trans hle (min_le_left a d)
    · intro y hy
      rcases List.mem_cons.1 hy with hyd | hyt
      · rw [hyd]
        exact le_trans hle (min_le_right a d)
      · exact hall y hyt

theorem optFold_none_spec :
    ∀ l : List ℝ, (l = [] ∧ optFold none l = none) ∨
      ∃ m, optFold none l = some m ∧ m ∈ l ∧ ∀ y ∈ l, m ≤ y := by
  intro l
  cases l with
  | nil => exact Or.inl ⟨rfl, rfl⟩
  | cons d t =>
    right
    rcases optFold_some_spec t d with ⟨m, hm, hmem, hle, hall⟩
    refine ⟨m, ?_, ?_, ?_⟩
    · simp only [optFold]
      exact hm
    · rcases hmem with rfl | h
      · simp
      · exact List.mem_cons_of_mem d h
    · intro y hy
      rcases List.mem_cons.1 hy with rfl | hyt
      · exact hle
      · exact hall y hyt

theorem minDistToRoute_spec (g : Graph) (route : List ℤ) (v : JVal) :
    (distCandidates g route v = [] ∧ minDistToRoute g route v = none) ∨
      ∃ m, minDistToRoute g route v = some m ∧ m ∈ distCandidates g route v ∧
        ∀ y ∈ distCandidates g route v, m ≤ y := by
  unfold minDistToRoute
  rw [minDistLoop_eq_optFold]
  exact optFold_none_spec _

/-- C1 (amended): for a camera whose stored node id matches no route node, the
matcher takes the minimum `m` of the candidate distances — computed between
the coordinates of the graph node referenced by the camera and those of the
route nodes present in the graph, not from the stored coordinate of the
camera itself — and includes
the camera as `mkRanked cam false m` when `m ≤ bufferKm`, excluding it when
every candidate exceeds the buffer or none exists. -/
theorem claim_C1 (g : Graph) (route_nodes : List ℤ) (cameras : List Camera) (buffer : ℝ)
    (cam : Camera) (hmem : cam ∈ cameras)
    (hnot : ¬ ∃ n ∈ route_nodes, valueEqId (dictGet cam keyNodeId) n) :
    ((∃ m, m ∈ distCandidates g route_nodes (dictGet cam keyNodeId) ∧
        (∀ y ∈ distCandidates g route_nodes (dictGet cam keyNodeId), m ≤ y) ∧ m ≤ buffer) →
      ∃ m, (m ∈ distCandidates g route_nodes (dictGet cam keyNodeId) ∧
          (∀ y ∈ distCandidates g route_nodes (dictGet cam keyNodeId), m ≤ y) ∧ m ≤ buffer) ∧
        mkRanked cam false m ∈ find_cameras_on_route g route_nodes cameras buffer) ∧
    ((∀ y ∈ distCandidates g route_nodes (dictGet cam keyNodeId), buffer < y) →
      classifyCamera g route_nodes cam buffer = none) := by
  constructor
  · rintro ⟨m0, hm0, hmin0, hbuf0⟩
    rcases minDistToRoute_spec g route_nodes (dictGet cam keyNodeId) with
      ⟨hnil, _⟩ | ⟨m, hm, hmm, hmall⟩
    · rw [hnil] at hm0
      exact absurd hm0 (List.not_mem_nil m0)
    · have hmbuf : m ≤ buffer := le_trans (hmall m0 hm0) hbuf0
      have hclass : classifyCamera g route_nodes cam buffer =
          some (mkRanked cam false m) := by
        simp only [classifyCamera]
        rw [if_neg hnot, hm]
        simp [hmbuf]
      have hroute : route_nodes ≠ [] := by
        intro h
        subst h
        simp [distCandidates] at hm0
      have hcams : cameras ≠ [] := fun h => by
        rw [h] at hmem
        exact absurd hmem (List.not_mem_nil cam)
      refine ⟨m, ⟨hmm, hmall, hmbuf⟩, ?_⟩
      unfold find_cameras_on_route
      rw [if_neg (not_or.2 ⟨hroute, hcams⟩)]
      exact (List.perm_insertionSort sortKeyLE _).mem_iff.2
        (List.mem_filterMap.2 ⟨cam, hmem, hclass⟩)
  · intro hall
    rcases minDistToRoute_spec g route_nodes (dictGet cam keyNodeId) with
      ⟨_, hnone⟩ | ⟨m, hm, hmm, _⟩
    · simp only [classifyCamera]
      rw [if_neg hnot, hnone]
    · have hgt : buffer < m := hall m hmm
      simp only [classifyCamera]
      rw [if_neg hnot, hm]
      simp [not_le.2 hgt]

/-- Two nodes at the same coordinate, no edges: node 1 is the route node,
node 2 the camera node. -/
def gTwin : Graph := ⟨[(1, 0, 0), (2, 0, 0)], []⟩

def twinName : String := "K"

/-- A camera snapped to node 2 but whose stored coordinate (latitude 0,
longitude 180) is on the other side of the planet. -/
def camTwin : Camera :=
  [(keyName, .str twinName), (keyX, .num 180), (keyY, .num 0), (keyNodeId, .num 2)]

theorem camTwin_not_on_route :
    ¬ ∃ n ∈ [(1 : ℤ)], valueEqId (dictGet camTwin keyNodeId) n := by
  rintro ⟨n, hn, hv⟩
  simp at hn
  subst hn
  have hget : dictGet camTwin keyNodeId = .num 2 := rfl
  rw [hget] at hv
  norm_num [valueEqId] at hv

theorem findNodeVal_gTwin : findNodeVal gTwin.nodes (JVal.num 2) = some (2, 0, 0) := by
  show findNodeVal [(1, 0, 0), (2, 0, 0)] (JVal.num 2) = some (2, 0, 0)
  simp only [findNodeVal]
  rw [if_neg (by norm_num [valueEqId]), if_pos (by norm_num [valueEqId])]

theorem camY_gTwin : camY gTwin (JVal.num 2) = 0 := by
  unfold camY
  rw [findNodeVal_gTwin]

theorem camX_gTwin : camX gTwin (JVal.num 2) = 0 := by
  unfold camX
  rw [findNodeVal_gTwin]

theorem minDist_gTwin :
    minDistToRoute gTwin [1] (JVal.num 2) = some (calculate_distance 0 0 0 0) := by
  have hcond : (1 : ℤ) ∈ nodeIds gTwin ∧ hasNodeVal gTwin (JVal.num 2) :=
    ⟨by decide, ⟨2, by decide, by norm_num [valueEqId]⟩⟩
  unfold minDistToRoute
  simp only [minDistLoop]
  rw [if_pos hcond]
  show some (calculate_distance (nodeY gTwin 1) (nodeX gTwin 1)
      (camY gTwin (JVal.num 2)) (camX gTwin (JVal.num 2))) = _
  rw [camY_gTwin, camX_gTwin, show nodeY gTwin 1 = (0 : ℝ) from rfl,
    show nodeX gTwin 1 = (0 : ℝ) from rfl]

theorem classify_camTwin :
    classifyCamera gTwin [1] camTwin 0.1 = some (mkRanked camTwin false 0) := by
  simp only [classifyCamera]
  rw [if_neg camTwin_not_on_route]
  have hget : dictGet camTwin keyNodeId = JVal.num 2 := rfl
  rw [hget, minDist_gTwin, calculate_distance_self]
  show (if (0 : ℝ) ≤ 0.1 then some (mkRanked camTwin false 0) else none) = _
  rw [if_pos (by norm_num)]

theorem far_distance : (0.1 : ℝ) < calculate_distance 0 180 0 0 := by
  rw [calculate_distance_eq]
  have ha : haversine_a 0 180 0 0 = 1 := by
    unfold haversine_a
    rw [radians_of_180, show radians 0 = 0 by simp [radians],
      show ((0 : ℝ) - Real.pi) / 2 = -(Real.pi / 2) by ring,
      Real.sin_neg, Real.sin_pi_div_two]
    simp
  rw [ha, Real.sqrt_one, Real.arcsin_one]
  nlinarith [Real.pi_gt_three]

/-- C1 counterexample: the stored coordinate of `camTwin` is 0.1 km (indeed
thousands of km) away from every route node coordinate, so the claim as
stated demands its exclusion; the code nevertheless includes it (at distance
0) because it measures from the coordinate of the graph node referenced by
the camera, not from the stored coordinate of the camera itself. -/
theorem claim_C1_counterexample :
    dictGet camTwin keyY = JVal.num 0 ∧ dictGet camTwin keyX = JVal.num 180 ∧
      nodeY gTwin 1 = 0 ∧ nodeX gTwin 1 = 0 ∧
      (0.1 : ℝ) < calculate_distance 0 180 0 0 ∧
      (¬ ∃ n ∈ [(1 : ℤ)], valueEqId (dictGet camTwin keyNodeId) n) ∧
      find_cameras_on_route gTwin [1] [camTwin] 0.1 = [mkRanked camTwin false 0] := by
  refine ⟨rfl, rfl, rfl, rfl, far_distance, camTwin_not_on_route, ?_⟩
  unfold find_cameras_on_route
  rw [if_neg (by simp)]
  have hfm : [camTwin].filterMap (fun c => classifyCamera gTwin [1] c 0.1) =
      [mkRanked camTwin false 0] := by
    simp [List.filterMap_cons, classify_camTwin]
  rw [hfm]
  rfl

/-- C1 witness (for the amended theorem): the camera is included with the
minimal node-to-node distance 0. -/
theorem claim_C1_witness :
    camTwin ∈ [camTwin] ∧
      (¬ ∃ n ∈ [(1 : ℤ)], valueEqId (dictGet camTwin keyNodeId) n) ∧
      (∃ m, m ∈ distCandidates gTwin [1] (dictGet camTwin keyNodeId) ∧
        (∀ y ∈ distCandidates gTwin [1] (dictGet camTwin keyNodeId), m ≤ y) ∧ m ≤ 0.1) ∧
      ∃ m, (m ∈ distCandidates gTwin [1] (dictGet camTwin keyNodeId) ∧
          (∀ y ∈ distCandidates gTwin [1] (dictGet camTwin keyNodeId), m ≤ y) ∧ m ≤ 0.1) ∧
        mkRanked camTwin false m ∈ find_cameras_on_route gTwin [1] [camTwin] 0.1 := by
  have hget : dictGet camTwin keyNodeId = JVal.num 2 := rfl
  have hcand : distCandidates gTwin [1] (dictGet camTwin keyNodeId) =
      [calculate_distance 0 0 0 0] := by
    rw [hget]
    rw [show ([(1 : ℤ)] : List ℤ) = 1 :: [] from rfl]
    rw [distCandidates_cons_pos gTwin (JVal.num 2) 1 []
      ⟨by decide, ⟨2, by decide, by norm_num [valueEqId]⟩⟩]
    rw [camY_gTwin, camX_gTwin]
    rfl
  have hex : ∃ m, m ∈ distCandidates gTwin [1] (dictGet camTwin keyNodeId) ∧
      (∀ y ∈ distCandidates gTwin [1] (dictGet camTwin keyNodeId), m ≤ y) ∧ m ≤ 0.1 := by
    refine ⟨calculate_distance 0 0 0 0, ?_, ?_, ?_⟩
    · rw [hcand]; simp
    · rw [hcand]
      intro y hy
      simp at hy
      rw [hy]
    · rw [calculate_distance_self]
      norm_num
  exact ⟨by simp, camTwin_not_on_route, hex,
    (claim_C1 gTwin [1] [camTwin] 0.1 camTwin (by simp) camTwin_not_on_route).1 hex⟩

/-! ## Registration (src/main.py lines 96-104 and 385-405) -/

/-- Python `str.strip()` with no argument: removes leading and trailing
whitespace. Implemented over the character list so that it evaluates inside
the kernel. -/
def pyStrip (s : String) : String :=
  String.mk (((s.data.dropWhile Char.isWhitespace).reverse.dropWhile
    Char.isWhitespace).reverse)

/-- Python equality between a trimmed candidate name and the `name` value of a
registered record: only a string value can match. -/
def nameMatches (c : Camera) (s : String) : Bool :=
  match dictGet c keyName with
  | .str t => t == s
  | _ => false

/-- Transcription of `add_new_camera`: appends the fresh four-field record. -/
def add_new_camera (name : String) (x y : ℝ) (node_id : ℤ) (cameras : List Camera) :
    List Camera :=
  cameras ++ [[(keyName, .str name), (keyX, .num x), (keyY, .num y),
    (keyNodeId, .num (node_id : ℝ))]]

/-- Failure modes of the registration flow. -/
inductive RegError where
  | emptyName : RegError
  | duplicateName : RegError
  | noNode : RegError
deriving DecidableEq

/-- Transcription of the registration flow in `main`: reject a name that is
empty after trimming, then a trimmed name equal to an already-registered name,
then a failed nearest-node resolution; otherwise append via `add_new_camera`.
The first component is the resulting registry. -/
def register_camera (name : String) (x y : ℝ) (node_id : Option ℤ)
    (cameras : List Camera) : List Camera × Option RegError :=
  if pyStrip name = "" then (cameras, some .emptyName)
  else if cameras.any (fun c => nameMatches c (pyStrip name)) then
    (cameras, some .duplicateName)
  else
    match node_id with
    | none => (cameras, some .noNode)
    | some n => (add_new_camera (pyStrip name) x y n cameras, none)

/-- C8: registration rejects an empty (after trimming) name with the
`emptyName` outcome and a name already present in the registry with the
`duplicateName` outcome, and in both cases returns the registry unchanged. -/
theorem claim_C8 (name : String) (x y : ℝ) (node_id : Option ℤ) (cameras : List Camera) :
    (pyStrip name = "" →
      register_camera name x y node_id cameras = (cameras, some .emptyName)) ∧
    (pyStrip name ≠ "" → (∃ c ∈ cameras, nameMatches c (pyStrip name) = true) →
      register_camera name x y node_id cameras = (cameras, some .duplicateName)) := by
  constructor
  · intro h
    unfold register_camera
    rw [if_pos h]
  · intro h hdup
    unfold register_camera
    rw [if_neg h, if_pos]
    rcases hdup with ⟨c, hc, hm⟩
    exact List.any_eq_true.2 ⟨c, hc, hm⟩

def sampleName : String := "cam"

def camA : Camera := [(keyName, .str sampleName)]

/-- C3 witness: the stability equation of `claim_C3` at a concrete input and
key. -/
theorem claim_C3_witness :
    (find_cameras_on_route gOne [1] [camDup] 0.1).filter
        (fun e => decide (sortKey e = ((0 : ℕ), (0 : ℝ)))) =
      ([camDup].filterMap fun c => classifyCamera gOne [1] c 0.1).filter
        (fun e => decide (sortKey e = ((0 : ℕ), (0 : ℝ)))) :=
  (claim_C3 gOne [1] [camDup]).2.2.1 ((0 : ℕ), (0 : ℝ))

/-- C5 witness at concrete coordinates. -/
theorem claim_C5_witness :
    calculate_distance 40 31 40 31 = 0 ∧
      calculate_distance 40 31 41 32 = calculate_distance 41 32 40 31 :=
  claim_C5 40 31 41 32

def blankName : String := "  "

/-- C8 witness: a whitespace-only name and a duplicate name at concrete
inputs. -/
theorem claim_C8_witness :
    (pyStrip blankName = "") ∧
      register_camera blankName 0 0 none [] = ([], some .emptyName) ∧
      (pyStrip sampleName ≠ "") ∧
      (∃ c ∈ [camA], nameMatches c (pyStrip sampleName) = true) ∧
      register_camera sampleName 0 0 none [camA] = ([camA], some .duplicateName) :=
  ⟨by decide, (claim_C8 blankName 0 0 none []).1 (by decide), by decide,
    ⟨camA, List.mem_singleton.2 rfl, by decide⟩,
    (claim_C8 sampleName 0 0 none [camA]).2 (by decide)
      ⟨camA, List.mem_singleton.2 rfl, by decide⟩⟩

end Hirsiz
